import Mathlib

/-!
# Verification of the top-color pipeline (`top_colors.py`)

A shallow embedding of the color-scanning pipeline: the color extractor
(`find_top_colors`, `rgb_to_hex`), the image validity check
(`check_valid_image`), the image fetcher outcome handling (`load_image`),
the URL reader loop (`read_urls`), the worker loop (`process_image`) and
the result writer (`write_results`), together with proofs of the spec
properties.

Python data is modelled as follows: a PIL image is a pixel grid whose
pixel values are either plain integers (single-channel modes such as
grayscale L or palette P) or tuples of channel values (LA, RGB, RGBA);
`numpy.array(im).shape` is derived from the mode. Python exceptions
surface as `Option`/`Except` failures. Python `sorted(reverse=True, key)`
is a stable descending sort, modelled by `List.insertionSort` with the
relation "count of the left argument is at least the count of the right",
which is stable in exactly the same way.
-/

namespace TopColors

/-- A Python value that PIL yields for one pixel: a bare integer for
single-channel modes, a tuple of channel values otherwise. -/
inductive PyColor where
  | int (v : Nat)
  | tuple (cs : List Nat)
deriving DecidableEq, Repr

/-- A decoded PIL image: its mode is summarised by the channel depth
(1 for L/P, 2 for LA, 3 for RGB, 4 for RGBA), plus height, width and the
flattened pixel grid. -/
structure PILImage where
  channels : Nat
  h : Nat
  w : Nat
  pixels : List PyColor
deriving DecidableEq, Repr

/-- A pixel value consistent with a mode of `channels` channels: a byte
for single-channel modes, a tuple of exactly `channels` bytes otherwise. -/
def pixelOk (channels : Nat) : PyColor → Bool
  | PyColor.int v => channels == 1 && v < 256
  | PyColor.tuple cs => (2 ≤ channels && cs.length == channels) && cs.all (· < 256)

/-- Pixel values are consistent with the mode: single-channel images hold
bare integers, multi-channel images hold tuples of exactly `channels`
values, and every channel value is a byte. -/
def WellFormedImage (im : PILImage) : Prop :=
  1 ≤ im.channels ∧ ∀ p ∈ im.pixels, pixelOk im.channels p = true

instance (im : PILImage) : Decidable (WellFormedImage im) := by
  unfold WellFormedImage
  infer_instance

/-- Python subscription `x[i]` on a pixel value: raises `TypeError` on a
bare int, `IndexError` past the end of a tuple (both modelled as `none`). -/
def pySubscript : PyColor → Nat → Option Nat
  | PyColor.int _, _ => none
  | PyColor.tuple cs, i => cs[i]?

/-- Keep the first occurrence of each element, dropping later duplicates
(`seen` accumulates the values already emitted). -/
def dedupFirstAux (seen : List PyColor) : List PyColor → List PyColor
  | [] => []
  | x :: xs =>
      if x ∈ seen then dedupFirstAux seen xs
      else x :: dedupFirstAux (x :: seen) xs

/-- Keep the first occurrence of each element, dropping later duplicates. -/
def dedupFirst (l : List PyColor) : List PyColor :=
  dedupFirstAux [] l

/-- The frequency count `getcolors` produces when it does not overflow:
one `(count, color)` pair per distinct pixel value. PIL's enumeration
order is implementation defined; the model fixes first-occurrence order,
which the theorems never rely on beyond it being the pre-sort order. -/
def getcolorsList (pixels : List PyColor) : List (Nat × PyColor) :=
  (dedupFirst pixels).map (fun c => (pixels.count c, c))

/-- `im.getcolors(maxcolors=256 ** 3)`: the frequency count, or `None`
when the image holds more than `maxcolors` distinct pixel values (PIL
stops counting and returns `None`; reachable for images of 4 or more
channels, never for 3-channel RGB). -/
def getcolors (pixels : List PyColor) : Option (List (Nat × PyColor)) :=
  if 256 ^ 3 < (dedupFirst pixels).length then none
  else some (getcolorsList pixels)

/-- The comparison realised by `sorted(colors, reverse=True, key=lambda x: x[0])`:
`a` may stay before `b` iff `a`'s count is at least `b`'s. -/
def countGE (a b : Nat × PyColor) : Prop := b.1 ≤ a.1

instance : DecidableRel countGE := fun a b => Nat.decLe b.1 a.1

instance : IsTotal (Nat × PyColor) countGE :=
  ⟨fun a b => (Nat.le_total b.1 a.1).imp id id⟩

instance : IsTrans (Nat × PyColor) countGE :=
  ⟨fun _ _ _ hab hbc => Nat.le_trans hbc hab⟩

/-- Python `sorted(colors, reverse=True, key=lambda x: x[0])`: a stable
sort descending on the count component. -/
def pySortedByCountDesc (colors : List (Nat × PyColor)) : List (Nat × PyColor) :=
  List.insertionSort countGE colors

/-- The sixteen uppercase hexadecimal digit characters. -/
def hexDigit (n : Nat) : Char :=
  (['0', '1', '2', '3', '4', '5', '6', '7',
    '8', '9', 'A', 'B', 'C', 'D', 'E', 'F']).getD n '0'

/-- Digits of `n` in base 16, most significant first, for `n > 0`
(first argument is fuel, always sufficient at `fuel = n`). -/
def toHexAux : Nat → Nat → List Char
  | 0, _ => []
  | fuel + 1, n => if n = 0 then [] else toHexAux fuel (n / 16) ++ [hexDigit (n % 16)]

/-- Uppercase hexadecimal digits of `n` (Python `"{:X}".format(n)`). -/
def toHexUpper (n : Nat) : List Char :=
  if n = 0 then ['0'] else toHexAux n n

/-- Python `"{:02X}".format(v)`: uppercase hex, zero-padded to width 2. -/
def format02X (v : Nat) : List Char :=
  List.replicate (2 - (toHexUpper v).length) '0' ++ toHexUpper v

/-- `rgb_to_hex`: `"#{:02X}{:02X}{:02X}".format(r, g, b)`. -/
def rgb_to_hex (r g b : Nat) : String :=
  String.mk ('#' :: (format02X r ++ format02X g ++ format02X b))

/-- The list comprehension
`[rgb_to_hex(x[1][0], x[1][1], x[1][2]) for x in top_n]`, with a failed
subscription (grayscale pixel, or tuple shorter than 3) aborting the whole
comprehension as the corresponding Python exception would. -/
def hexOfEntries : List (Nat × PyColor) → Option (List String)
  | [] => some []
  | x :: xs => do
      let r ← pySubscript x.2 0
      let g ← pySubscript x.2 1
      let b ← pySubscript x.2 2
      let rest ← hexOfEntries xs
      pure (rgb_to_hex r g b :: rest)

/-- `find_top_colors(im, n=3)`: frequency-count the pixels, stable-sort
descending by count, keep the first `n`, format as hex strings. `none`
models the raised exceptions: the `TypeError` of `sorted(None)` when
`getcolors` overflowed, and the `TypeError`/`IndexError` when a top
color is not an RGB-like tuple. -/
def find_top_colors (im : PILImage) (n : Nat := 3) : Option (List String) :=
  match getcolors im.pixels with
  | none => none
  | some colors => hexOfEntries ((pySortedByCountDesc colors).take n)

/-- `numpy.array(im).shape`: 2-dimensional for single-channel modes,
3-dimensional with trailing channel count otherwise. -/
def npShape (im : PILImage) : List Nat :=
  if im.channels = 1 then [im.h, im.w] else [im.h, im.w, im.channels]

/-- `check_valid_image`: `len(im_shape) == 3 and im_shape[-1] >= 3`. -/
def check_valid_image (im : PILImage) : Bool :=
  ((npShape im).length == 3) && decide (3 ≤ (npShape im).getLastD 0)

/-! ## Image fetcher (`load_image`)

The network interaction is abstracted by the outcome the HTTP client and
the decoder produce for a URL; `load_image` turns each failure outcome
into a logged warning and a `None` return. -/

/-- What `requests.get` followed by `Image.open` can do for one URL. -/
inductive FetchOutcome where
  | ok (im : PILImage)
  | connectionError
  | missingSchema
  | unidentifiedImage
deriving DecidableEq, Repr

/-- `load_image`: returns the decoded image, or `None` after logging a
warning on `ConnectionError`, `MissingSchema` or `UnidentifiedImageError`. -/
def load_image : FetchOutcome → Option PILImage
  | FetchOutcome.ok im => some im
  | FetchOutcome.connectionError => none
  | FetchOutcome.missingSchema => none
  | FetchOutcome.unidentifiedImage => none

/-! ## Worker (`process_image`) -/

/-- One result row: the URL followed by its top colors. -/
abbrev ColorRecord := List String

/-- The body of one `process_image` iteration for a dequeued URL:
drop the URL on fetch failure or on a failed validity check, otherwise
emit `[url] + find_top_colors(im)` (a `none` here would be the
uncaught exception of `find_top_colors` on an invalid pixel grid). -/
def process_one (url : String) (outcome : FetchOutcome) : Option ColorRecord :=
  match load_image outcome with
  | none => none
  | some im =>
      if check_valid_image im then
        (find_top_colors im 3).map (fun cs => url :: cs)
      else none

/-- What a `process_image` iteration decides to do. -/
inductive WorkerAction where
  | process (url : String)
  | wait
  | exit
deriving DecidableEq, Repr

/-- The branch structure of the `process_image` loop: dequeue when the
queue is non-empty, otherwise exit if `finished_reading` is set,
otherwise sleep briefly and retry. -/
def process_image_step (urls : List String) (finished_reading : Bool) : WorkerAction :=
  match urls with
  | url :: _ => WorkerAction.process url
  | [] => if finished_reading then WorkerAction.exit else WorkerAction.wait

/-- A worker draining the whole queue after `finished_reading` is set
(the single-worker run of `process_image`): each URL is dequeued once,
processed, and its record enqueued iff processing succeeded. -/
def process_images : List (String × FetchOutcome) → List ColorRecord
  | [] => []
  | (url, o) :: rest =>
      match process_one url o with
      | none => process_images rest
      | some r => r :: process_images rest

/-! ## URL reader (`read_urls` / `find_eof`)

The text stream is modelled by its remaining character suffix: `tell()`
equals `eof` (the offset `find_eof` pre-computed) exactly when the
remaining suffix is empty. -/

/-- The characters Python `str.strip()` removes. -/
def isPySpace (c : Char) : Bool :=
  c == ' ' || c == '\t' || c == '\n' || c == '\r' || c == '\x0b' || c == '\x0c'

/-- Python `str.strip()`: drop whitespace from both ends. -/
def pyStrip (l : List Char) : List Char :=
  ((l.dropWhile isPySpace).reverse.dropWhile isPySpace).reverse

/-- `f.readline()`: the next line including its newline (empty exactly at
end of stream), paired with the rest of the stream. -/
def readline : List Char → List Char × List Char
  | [] => ([], [])
  | c :: rest =>
      if c = '\n' then ([c], rest)
      else
        let p := readline rest
        (c :: p.1, p.2)

theorem readline_eq_append (content : List Char) :
    content = (readline content).1 ++ (readline content).2 := by
  induction content with
  | nil => rfl
  | cons c rest ih =>
      simp only [readline]
      split
      · rfl
      · simpa using ih

theorem readline_fst_ne_nil {content : List Char} (h : content ≠ []) :
    (readline content).1 ≠ [] := by
  cases content with
  | nil => exact absurd rfl h
  | cons c rest =>
      simp only [readline]
      split <;> simp

theorem readline_snd_length {content : List Char} (h : (readline content).1 ≠ []) :
    (readline content).2.length < content.length := by
  conv_rhs => rw [readline_eq_append content]
  rw [List.length_append]
  have : 0 < (readline content).1.length := List.length_pos.mpr h
  omega

theorem pyStrip_ne_nil {l : List Char} (h : pyStrip l ≠ []) : l ≠ [] := by
  intro hl
  subst hl
  exact h rfl

/-- The `while True` loop of `read_urls`, on the remaining stream: strip
the next line; a non-blank result is enqueued; a blank result is skipped
when the position has not reached the pre-computed end of file
(`urlfile.tell() != eof`, i.e. the remaining suffix is non-empty), and
ends the loop otherwise. -/
def read_urls_loop (content : List Char) : List String :=
  if hc : content = [] then
    []
  else
    let p := readline content
    let url := pyStrip p.1
    if url ≠ [] then
      String.mk url :: read_urls_loop p.2
    else if p.2 ≠ [] then
      read_urls_loop p.2
    else
      []
termination_by content.length
decreasing_by
  all_goals exact readline_snd_length (readline_fst_ne_nil hc)

/-- `read_urls`: the input file either fails to open (`FileNotFoundError`,
re-raised as a fatal error after a critical log line) or is read by
`read_urls_loop`; the returned list is the sequence of URLs enqueued. -/
def read_urls (file : Option (List Char)) : Except String (List String) :=
  match file with
  | none => Except.error "Input file not found"
  | some content => Except.ok (read_urls_loop content)

/-- The lines `readline` would deliver, in stream order. -/
def streamLines (content : List Char) : List (List Char) :=
  if h : content = [] then []
  else (readline content).1 :: streamLines (readline content).2
termination_by content.length
decreasing_by
  exact readline_snd_length (readline_fst_ne_nil h)

/-! ## Result writer (`write_results`) -/

/-- `open(result_path, "a")`: an absent sink is created empty, an existing
sink keeps all its rows. -/
def openAppend (existing : Option (List ColorRecord)) : List ColorRecord :=
  match existing with
  | none => []
  | some rows => rows

/-- The writer loop: append each dequeued record as one row at the end of
the sink, until the result queue is drained and `finished_processing` set. -/
def writeRows : List ColorRecord → List ColorRecord → List ColorRecord
  | sink, [] => sink
  | sink, r :: rs => writeRows (sink ++ [r]) rs

/-- `write_results`: open the sink in append mode and drain the result
queue into it. -/
def write_results (existing : Option (List ColorRecord))
    (results : List ColorRecord) : List ColorRecord :=
  writeRows (openAppend existing) results

/-! ## Vocabulary for the stated properties -/

/-- An uppercase hexadecimal digit character. -/
def isHexUpper (c : Char) : Bool :=
  ('0' ≤ c && c ≤ '9') || ('A' ≤ c && c ≤ 'F')

/-- A well-formed color string: `#` followed by six uppercase hex digits. -/
def WellFormedHexColor (s : String) : Prop :=
  s.length = 7 ∧ s.data.take 1 = ['#'] ∧ ∀ c ∈ s.data.drop 1, isHexUpper c = true

/-- The number of distinct pixel values of an image (`getcolors` yields
exactly one entry per distinct value). -/
def numDistinctColors (im : PILImage) : Nat :=
  (dedupFirst im.pixels).length

/-- The output string a `getcolors` entry is formatted to: the hex code of
the first three channel values of its color tuple. -/
def entryHex (x : Nat × PyColor) (s : String) : Prop :=
  ∃ r g b rest, x.2 = PyColor.tuple (r :: g :: b :: rest) ∧ s = rgb_to_hex r g b

/-- A URL job the worker keeps: the fetch decodes and the validity check
passes. -/
def is_valid_job (j : String × FetchOutcome) : Bool :=
  match j.2 with
  | FetchOutcome.ok im => check_valid_image im
  | _ => false

/-- A URL job whose decoded image, when it passes the validity check, is a
well-formed pixel grid (what PIL guarantees for any image it decodes)
whose distinct-color count stays within the `maxcolors=256 ** 3` cap of
`getcolors` (automatic for 3-channel RGB images, see
`numDistinctColors_le_cap_rgb`). -/
def job_wf (j : String × FetchOutcome) : Bool :=
  match j.2 with
  | FetchOutcome.ok im =>
      !(check_valid_image im) ||
        (decide (WellFormedImage im) && decide (numDistinctColors im ≤ 256 ^ 3))
  | _ => true

/-- A tiny valid RGB image: two black pixels, one white pixel. -/
def demoRGB : PILImage :=
  ⟨3, 1, 3, [PyColor.tuple [0, 0, 0], PyColor.tuple [255, 255, 255],
             PyColor.tuple [0, 0, 0]]⟩

/-- A grayscale (mode L) image, as a host returns for a removed image. -/
def demoGray : PILImage :=
  ⟨1, 1, 2, [PyColor.int 7, PyColor.int 7]⟩

/-- A valid RGB image with a single distinct color. -/
def demoMono : PILImage :=
  ⟨3, 1, 1, [PyColor.tuple [0, 0, 0]]⟩

/-- `256 ^ 3 + 1` pairwise distinct RGBA pixel values (base-256 digits of
the pixel index, the alpha channel carrying the overflow bit). -/
def overflowPixels : List PyColor :=
  (List.range (256 ^ 3 + 1)).map (fun i =>
    PyColor.tuple [i % 256, i / 256 % 256, i / 65536 % 256, i / 16777216])

/-- A well-formed RGBA image that passes the validity check but exceeds
the `maxcolors=256 ** 3` cap of `getcolors`: a 1 x (256^3+1) image whose
pixels are pairwise distinct RGBA values. -/
def bigRGBA : PILImage :=
  ⟨4, 1, 256 ^ 3 + 1, overflowPixels⟩

/-! ## Supporting lemmas: distinct colors and the frequency count -/

theorem mem_dedupFirstAux {x : PyColor} :
    ∀ {l seen : List PyColor}, x ∈ dedupFirstAux seen l ↔ x ∈ l ∧ x ∉ seen := by
  intro l
  induction l with
  | nil => simp [dedupFirstAux]
  | cons y ys ih =>
      intro seen
      by_cases hy : y ∈ seen
      · rw [dedupFirstAux, if_pos hy, ih]
        constructor
        · exact fun ⟨h1, h2⟩ => ⟨List.mem_cons_of_mem _ h1, h2⟩
        · rintro ⟨h1, h2⟩
          rcases List.mem_cons.mp h1 with rfl | h1
          · exact absurd hy h2
          · exact ⟨h1, h2⟩
      · rw [dedupFirstAux, if_neg hy]
        by_cases hxy : x = y
        · subst hxy
          simp [hy]
        · rw [List.mem_cons, ih]
          constructor
          · rintro (rfl | ⟨h1, h2⟩)
            · exact absurd rfl hxy
            · exact ⟨List.mem_cons_of_mem _ h1,
                fun hs => h2 (List.mem_cons_of_mem _ hs)⟩
          · rintro ⟨h1, h2⟩
            rcases List.mem_cons.mp h1 with rfl | h1
            · exact absurd rfl hxy
            · refine Or.inr ⟨h1, fun hs => ?_⟩
              rcases List.mem_cons.mp hs with rfl | hs
              · exact hxy rfl
              · exact h2 hs

theorem mem_dedupFirst {x : PyColor} {l : List PyColor} :
    x ∈ dedupFirst l ↔ x ∈ l := by
  rw [dedupFirst, mem_dedupFirstAux]
  simp

theorem nodup_dedupFirstAux :
    ∀ (l seen : List PyColor), (dedupFirstAux seen l).Nodup := by
  intro l
  induction l with
  | nil => intro seen; simp [dedupFirstAux]
  | cons y ys ih =>
      intro seen
      by_cases hy : y ∈ seen
      · rw [dedupFirstAux, if_pos hy]
        exact ih seen
      · rw [dedupFirstAux, if_neg hy]
        refine List.nodup_cons.mpr ⟨fun hmem => ?_, ih (y :: seen)⟩
        exact (mem_dedupFirstAux.mp hmem).2 (List.mem_cons_self y seen)

theorem nodup_dedupFirst (l : List PyColor) : (dedupFirst l).Nodup :=
  nodup_dedupFirstAux l []

theorem mem_getcolorsList {pixels : List PyColor} {e : Nat × PyColor}
    (he : e ∈ getcolorsList pixels) :
    e.1 = pixels.count e.2 ∧ e.2 ∈ pixels := by
  obtain ⟨c, hc, rfl⟩ := List.mem_map.mp he
  exact ⟨rfl, mem_dedupFirst.mp hc⟩

theorem length_getcolorsList (pixels : List PyColor) :
    (getcolorsList pixels).length = (dedupFirst pixels).length :=
  List.length_map _ _

theorem getcolorsList_ne_nil {pixels : List PyColor} (h : pixels ≠ []) :
    getcolorsList pixels ≠ [] := by
  cases pixels with
  | nil => exact absurd rfl h
  | cons p ps => simp [getcolorsList, dedupFirst, dedupFirstAux]

theorem getcolors_eq_some {pixels : List PyColor}
    (h : (dedupFirst pixels).length ≤ 256 ^ 3) :
    getcolors pixels = some (getcolorsList pixels) := by
  rw [getcolors, if_neg (by omega)]

theorem getcolors_eq_none {pixels : List PyColor}
    (h : 256 ^ 3 < (dedupFirst pixels).length) :
    getcolors pixels = none := by
  rw [getcolors, if_pos h]

/-! ## Supporting lemmas: the overflow image -/

theorem dedupFirstAux_of_nodup :
    ∀ (l seen : List PyColor), l.Nodup → (∀ x ∈ l, x ∉ seen) →
      dedupFirstAux seen l = l := by
  intro l
  induction l with
  | nil => intro seen _ _; rfl
  | cons x xs ih =>
      intro seen hnd hdisj
      rw [dedupFirstAux, if_neg (hdisj x (List.mem_cons_self x xs))]
      rw [ih (x :: seen) (List.nodup_cons.mp hnd).2]
      intro y hy
      intro hmem
      rcases List.mem_cons.mp hmem with rfl | hmem
      · exact (List.nodup_cons.mp hnd).1 hy
      · exact hdisj y (List.mem_cons_of_mem _ hy) hmem

theorem dedupFirst_of_nodup {l : List PyColor} (h : l.Nodup) :
    dedupFirst l = l :=
  dedupFirstAux_of_nodup l [] h (by simp)

theorem overflowPixels_nodup : overflowPixels.Nodup := by
  refine List.Nodup.map_on ?_ (List.nodup_range _)
  intro i hi j hj hij
  simp only [List.mem_range] at hi hj
  simp only [PyColor.tuple.injEq, List.cons.injEq, and_true] at hij
  obtain ⟨h1, h2, h3, h4⟩ := hij
  omega

theorem overflowPixels_length : overflowPixels.length = 256 ^ 3 + 1 := by
  rw [overflowPixels, List.length_map, List.length_range]

theorem overflowPixels_mem {p : PyColor} (hp : p ∈ overflowPixels) :
    ∃ i, i < 256 ^ 3 + 1 ∧
      p = PyColor.tuple [i % 256, i / 256 % 256, i / 65536 % 256, i / 16777216] := by
  unfold overflowPixels at hp
  obtain ⟨i, hi, hpi⟩ := List.mem_map.mp hp
  exact ⟨i, List.mem_range.mp hi, hpi.symm⟩

/- From here on `overflowPixels` is only handled through the lemmas
above: its 16-million-element definition must never be normalised. -/
attribute [irreducible] overflowPixels

theorem bigRGBA_pixels_eq : bigRGBA.pixels = overflowPixels := rfl

theorem bigRGBA_wf : WellFormedImage bigRGBA := by
  constructor
  · show 1 ≤ 4
    omega
  · intro p hp
    rw [bigRGBA_pixels_eq] at hp
    obtain ⟨i, hi, hpi⟩ := overflowPixels_mem hp
    rw [hpi]
    show ((2 ≤ 4 && (4 == 4)) &&
      ([i % 256, i / 256 % 256, i / 65536 % 256, i / 16777216].all (· < 256))) = true
    simp only [List.all_cons, List.all_nil, Bool.and_true, Bool.and_eq_true,
      decide_eq_true_eq]
    refine ⟨⟨by omega, by decide⟩, by omega, by omega, by omega, by omega⟩

theorem getcolors_bigRGBA : getcolors bigRGBA.pixels = none := by
  apply getcolors_eq_none
  rw [bigRGBA_pixels_eq, dedupFirst_of_nodup overflowPixels_nodup,
    overflowPixels_length]
  omega

theorem find_top_colors_bigRGBA (n : Nat) : find_top_colors bigRGBA n = none := by
  rw [find_top_colors, getcolors_bigRGBA]

/-- For a well-formed 3-channel (RGB) image the `maxcolors=256 ** 3` cap
of `getcolors` can never be exceeded: there are only `256 ^ 3` RGB byte
triples. -/
theorem numDistinctColors_le_cap_rgb {im : PILImage}
    (hwf : WellFormedImage im) (hch : im.channels = 3) :
    numDistinctColors im ≤ 256 ^ 3 := by
  rw [numDistinctColors]
  -- encode each distinct RGB triple as a number below 256 ^ 3
  set enc : PyColor → Nat := fun p =>
    match p with
    | PyColor.tuple (r :: g :: b :: _) => r * 65536 + g * 256 + b
    | _ => 0 with henc
  have hbyte : ∀ p ∈ dedupFirst im.pixels,
      ∃ r g b, p = PyColor.tuple [r, g, b] ∧ r < 256 ∧ g < 256 ∧ b < 256 := by
    intro p hp
    have hpx := hwf.2 p (mem_dedupFirst.mp hp)
    cases p with
    | int v =>
        simp only [pixelOk, Bool.and_eq_true, beq_iff_eq] at hpx
        omega
    | tuple cs =>
        simp only [pixelOk, Bool.and_eq_true, beq_iff_eq, decide_eq_true_eq,
          List.all_eq_true] at hpx
        obtain ⟨⟨-, hlen⟩, hbound⟩ := hpx
        rw [hch] at hlen
        cases cs with
        | nil => simp at hlen
        | cons r cs1 =>
            cases cs1 with
            | nil => simp at hlen
            | cons g cs2 =>
                cases cs2 with
                | nil => simp at hlen
                | cons b cs3 =>
                    cases cs3 with
                    | nil =>
                        exact ⟨r, g, b, rfl, hbound r (by simp),
                          hbound g (by simp), hbound b (by simp)⟩
                    | cons c4 cs4 => simp at hlen
  have hmapnd : ((dedupFirst im.pixels).map enc).Nodup := by
    refine List.Nodup.map_on ?_ (nodup_dedupFirst im.pixels)
    intro p hp q hq hpq
    obtain ⟨r1, g1, b1, rfl, hr1, hg1, hb1⟩ := hbyte p hp
    obtain ⟨r2, g2, b2, rfl, hr2, hg2, hb2⟩ := hbyte q hq
    simp only [henc] at hpq
    have : r1 = r2 ∧ g1 = g2 ∧ b1 = b2 := by omega
    simp [this.1, this.2.1, this.2.2]
  have hbound : ∀ v ∈ (dedupFirst im.pixels).map enc, v < 256 ^ 3 := by
    intro v hv
    obtain ⟨p, hp, rfl⟩ := List.mem_map.mp hv
    obtain ⟨r, g, b, rfl, hr, hg, hb⟩ := hbyte p hp
    simp only [henc]
    omega
  have hsub : ((dedupFirst im.pixels).map enc).toFinset ⊆ Finset.range (256 ^ 3) := by
    intro v hv
    rw [List.mem_toFinset] at hv
    exact Finset.mem_range.mpr (hbound v hv)
  have := Finset.card_le_card hsub
  rw [Finset.card_range, List.toFinset_card_of_nodup hmapnd] at this
  rw [← List.length_map (dedupFirst im.pixels) enc]
  exact this

/-! ## Supporting lemmas: hex formatting -/

set_option maxRecDepth 4096 in
theorem format02X_spec :
    ∀ v : Nat, v < 256 →
      (format02X v).length = 2 ∧ ∀ c ∈ format02X v, isHexUpper c = true := by
  decide

theorem rgb_to_hex_wf {r g b : Nat} (hr : r < 256) (hg : g < 256) (hb : b < 256) :
    WellFormedHexColor (rgb_to_hex r g b) := by
  obtain ⟨hrl, hrm⟩ := format02X_spec r hr
  obtain ⟨hgl, hgm⟩ := format02X_spec g hg
  obtain ⟨hbl, hbm⟩ := format02X_spec b hb
  refine ⟨?_, ?_, ?_⟩
  · rw [rgb_to_hex, String.length_mk]
    simp only [List.length_cons, List.length_append]
    omega
  · rfl
  · intro c hc
    simp only [rgb_to_hex, List.drop_succ_cons, List.drop_zero,
      List.mem_append] at hc
    rcases hc with (hc | hc) | hc
    · exact hrm c hc
    · exact hgm c hc
    · exact hbm c hc

/-! ## Supporting lemmas: the stable descending sort -/

theorem filter_orderedInsert_count (x : Nat × PyColor) (l : List (Nat × PyColor))
    (c : Nat) :
    (List.orderedInsert countGE x l).filter (fun y => y.1 == c) =
      if x.1 == c then x :: l.filter (fun y => y.1 == c)
      else l.filter (fun y => y.1 == c) := by
  induction l with
  | nil =>
      by_cases hxc : (x.1 == c) = true <;>
        simp [List.orderedInsert, List.filter, hxc]
  | cons y ys ih =>
      simp only [List.orderedInsert]
      by_cases hr : countGE x y
      · rw [if_pos hr]
        by_cases hxc : (x.1 == c) = true <;>
          by_cases hyc : (y.1 == c) = true <;>
            simp [List.filter_cons, hxc, hyc]
      · rw [if_neg hr]
        by_cases hxc : (x.1 == c) = true
        · have hyc : (y.1 == c) = false := by
            by_cases hyeq : y.1 = c
            · exfalso
              apply hr
              have hxeq : x.1 = c := by simpa using hxc
              show y.1 ≤ x.1
              omega
            · simpa using hyeq
          simp [List.filter_cons, hxc, hyc, ih]
        · have hxc0 : (x.1 == c) = false := by
            simpa using hxc
          by_cases hyc : (y.1 == c) = true <;>
            simp [List.filter_cons, hxc0, hyc, ih]

theorem filter_pySorted_count (l : List (Nat × PyColor)) (c : Nat) :
    (pySortedByCountDesc l).filter (fun y => y.1 == c) =
      l.filter (fun y => y.1 == c) := by
  induction l with
  | nil => rfl
  | cons x xs ih =>
      rw [pySortedByCountDesc] at ih ⊢
      rw [List.insertionSort, filter_orderedInsert_count, List.filter_cons, ih]

/-! ## Supporting lemmas: the extractor on valid images -/

theorem hexOfEntries_eq_some {l : List (Nat × PyColor)}
    (h : ∀ x ∈ l, ∃ r g b rest,
      x.2 = PyColor.tuple (r :: g :: b :: rest) ∧ r < 256 ∧ g < 256 ∧ b < 256) :
    ∃ out, hexOfEntries l = some out ∧ List.Forall₂ entryHex l out ∧
      ∀ s ∈ out, WellFormedHexColor s := by
  induction l with
  | nil => exact ⟨[], rfl, List.Forall₂.nil, by simp⟩
  | cons x xs ih =>
      obtain ⟨r, g, b, rest, hx, hr, hg, hb⟩ := h x (List.mem_cons_self x xs)
      obtain ⟨out, hout, hforall, hwfout⟩ :=
        ih (fun y hy => h y (List.mem_cons_of_mem x hy))
      refine ⟨rgb_to_hex r g b :: out, ?_, ?_, ?_⟩
      · rw [hexOfEntries, hx]
        simp [pySubscript, hout]
      · exact List.Forall₂.cons ⟨r, g, b, rest, hx, rfl⟩ hforall
      · intro s hs
        rcases List.mem_cons.mp hs with rfl | hs
        · exact rgb_to_hex_wf hr hg hb
        · exact hwfout s hs

theorem tuple_of_wf_entry {im : PILImage} (hwf : WellFormedImage im)
    (hch : 3 ≤ im.channels) {x : Nat × PyColor}
    (hx : x ∈ getcolorsList im.pixels) :
    ∃ r g b rest, x.2 = PyColor.tuple (r :: g :: b :: rest) ∧
      r < 256 ∧ g < 256 ∧ b < 256 := by
  obtain ⟨-, hpix⟩ := mem_getcolorsList hx
  have hok := hwf.2 x.2 hpix
  cases hx2 : x.2 with
  | int v =>
      rw [hx2] at hok
      simp only [pixelOk, Bool.and_eq_true, beq_iff_eq] at hok
      omega
  | tuple cs =>
      rw [hx2] at hok
      simp only [pixelOk, Bool.and_eq_true, beq_iff_eq, decide_eq_true_eq,
        List.all_eq_true] at hok
      obtain ⟨⟨-, hlen⟩, hbound⟩ := hok
      have h3 : 3 ≤ cs.length := by omega
      cases cs with
      | nil => simp at h3
      | cons r cs1 =>
          cases cs1 with
          | nil => simp at h3
          | cons g cs2 =>
              cases cs2 with
              | nil => simp at h3
              | cons b rest =>
                  refine ⟨r, g, b, rest, rfl, ?_, ?_, ?_⟩
                  · exact hbound r (by simp)
                  · exact hbound g (by simp)
                  · exact hbound b (by simp)

theorem find_top_colors_some {im : PILImage} (hwf : WellFormedImage im)
    (hch : 3 ≤ im.channels) (hcap : numDistinctColors im ≤ 256 ^ 3) (n : Nat) :
    getcolors im.pixels = some (getcolorsList im.pixels) ∧
    ∃ out, find_top_colors im n = some out ∧
      out.length = min n (numDistinctColors im) ∧
      List.Forall₂ entryHex ((pySortedByCountDesc (getcolorsList im.pixels)).take n) out ∧
      ∀ s ∈ out, WellFormedHexColor s := by
  have hsome : getcolors im.pixels = some (getcolorsList im.pixels) :=
    getcolors_eq_some hcap
  have hall : ∀ x ∈ (pySortedByCountDesc (getcolorsList im.pixels)).take n,
      ∃ r g b rest, x.2 = PyColor.tuple (r :: g :: b :: rest) ∧
        r < 256 ∧ g < 256 ∧ b < 256 := by
    intro x hx
    have hx2 : x ∈ pySortedByCountDesc (getcolorsList im.pixels) :=
      (List.take_sublist n _).subset hx
    have hx3 : x ∈ getcolorsList im.pixels :=
      (List.mem_insertionSort countGE).mp hx2
    exact tuple_of_wf_entry hwf hch hx3
  obtain ⟨out, hout, hforall, hwfout⟩ := hexOfEntries_eq_some hall
  refine ⟨hsome, out, ?_, ?_, hforall, hwfout⟩
  · rw [find_top_colors, hsome]
    exact hout
  · rw [← hforall.length_eq, List.length_take, pySortedByCountDesc,
      List.length_insertionSort, length_getcolorsList, numDistinctColors]

/-! ## Supporting lemmas: the validity check -/

theorem check_valid_image_eq (im : PILImage) :
    check_valid_image im = decide (3 ≤ im.channels) := by
  rw [check_valid_image, npShape]
  by_cases h1 : im.channels = 1
  · rw [if_pos h1, h1]
    rfl
  · rw [if_neg h1]
    try simp [List.getLastD]

/-! ## Supporting lemmas: the URL reader -/

theorem join_streamLines_bounded :
    ∀ (n : Nat) (content : List Char), content.length ≤ n →
      (streamLines content).flatten = content := by
  intro n
  induction n with
  | zero =>
      intro content hle
      have hc : content = [] := List.eq_nil_of_length_eq_zero (Nat.le_zero.mp hle)
      rw [streamLines, dif_pos hc, hc]
      rfl
  | succ n ih =>
      intro content hle
      by_cases hc : content = []
      · rw [streamLines, dif_pos hc, hc]
        rfl
      · have hlt : (readline content).2.length < content.length :=
          readline_snd_length (readline_fst_ne_nil hc)
        rw [streamLines, dif_neg hc, List.flatten_cons,
          ih (readline content).2 (by omega)]
        exact (readline_eq_append content).symm

theorem join_streamLines (content : List Char) :
    (streamLines content).flatten = content :=
  join_streamLines_bounded content.length content Nat.le.refl

theorem read_urls_loop_eq_bounded :
    ∀ (n : Nat) (content : List Char), content.length ≤ n →
      read_urls_loop content =
        (streamLines content).filterMap
          (fun l => if pyStrip l = [] then none else some (String.mk (pyStrip l))) := by
  intro n
  induction n with
  | zero =>
      intro content hle
      have hc : content = [] := List.eq_nil_of_length_eq_zero (Nat.le_zero.mp hle)
      rw [read_urls_loop, dif_pos hc, streamLines, dif_pos hc]
      rfl
  | succ n ih =>
      intro content hle
      by_cases hc : content = []
      · rw [read_urls_loop, dif_pos hc, streamLines, dif_pos hc]
        rfl
      · have hlt : (readline content).2.length < content.length :=
          readline_snd_length (readline_fst_ne_nil hc)
        have ih2 := ih (readline content).2 (by omega)
        rw [read_urls_loop, dif_neg hc, streamLines, dif_neg hc,
          List.filterMap_cons]
        by_cases hu : pyStrip (readline content).1 = []
        · rw [if_pos hu]
          simp only [hu, ne_eq, not_true_eq_false, if_false]
          by_cases h2 : (readline content).2 = []
          · simp only [h2, ne_eq, not_true_eq_false, if_false]
            rw [streamLines, dif_pos rfl]
            rfl
          · simp only [ne_eq, h2, not_false_eq_true, if_true]
            exact ih2
        · rw [if_neg hu]
          simp only [ne_eq, hu, not_false_eq_true, if_true]
          rw [ih2]

/-! ## Supporting lemmas: the result writer -/

theorem writeRows_eq_append :
    ∀ (results sink : List ColorRecord), writeRows sink results = sink ++ results := by
  intro results
  induction results with
  | nil => intro sink; simp [writeRows]
  | cons r rs ih =>
      intro sink
      rw [writeRows, ih]
      simp

/-! ## Supporting lemmas: the worker on one URL -/

theorem process_one_none_of_invalid {j : String × FetchOutcome}
    (h : is_valid_job j = false) : process_one j.1 j.2 = none := by
  obtain ⟨u, o⟩ := j
  cases o with
  | ok im =>
      simp only [is_valid_job] at h
      simp [process_one, load_image, h]
  | connectionError => rfl
  | missingSchema => rfl
  | unidentifiedImage => rfl

theorem process_one_some_of_valid {u : String} {im : PILImage}
    (hwf : WellFormedImage im) (hcap : numDistinctColors im ≤ 256 ^ 3)
    (hv : check_valid_image im = true) :
    ∃ cs, process_one u (FetchOutcome.ok im) = some (u :: cs) ∧
      cs.length = min 3 (numDistinctColors im) := by
  have hch : 3 ≤ im.channels := by
    rw [check_valid_image_eq] at hv
    exact of_decide_eq_true hv
  obtain ⟨-, out, hout, hlen, -, -⟩ := find_top_colors_some hwf hch hcap 3
  refine ⟨out, ?_, hlen⟩
  simp [process_one, load_image, hv, hout]

theorem job_wf_ok {u : String} {im : PILImage}
    (hj : job_wf (u, FetchOutcome.ok im) = true)
    (hv : check_valid_image im = true) :
    WellFormedImage im ∧ numDistinctColors im ≤ 256 ^ 3 := by
  simp only [job_wf, hv, Bool.not_true, Bool.false_or, Bool.and_eq_true,
    decide_eq_true_eq] at hj
  exact hj

theorem process_images_spec (jobs : List (String × FetchOutcome))
    (hwf : ∀ j ∈ jobs, job_wf j = true) :
    (process_images jobs).length = (jobs.filter is_valid_job).length ∧
    ∀ row ∈ process_images jobs, ∃ u im cs,
      (u, FetchOutcome.ok im) ∈ jobs ∧ check_valid_image im = true ∧
      row = u :: cs ∧ cs.length = min 3 (numDistinctColors im) := by
  induction jobs with
  | nil => exact ⟨rfl, by simp [process_images]⟩
  | cons j rest ih =>
      obtain ⟨ihlen, ihrows⟩ := ih (fun j hj => hwf j (List.mem_cons_of_mem _ hj))
      by_cases hv : is_valid_job j = true
      · obtain ⟨u, o⟩ := j
        have him : ∃ im, o = FetchOutcome.ok im ∧ check_valid_image im = true := by
          cases o with
          | ok im => exact ⟨im, rfl, by simpa [is_valid_job] using hv⟩
          | connectionError => simp [is_valid_job] at hv
          | missingSchema => simp [is_valid_job] at hv
          | unidentifiedImage => simp [is_valid_job] at hv
        obtain ⟨im, rfl, hvim⟩ := him
        obtain ⟨hwfim, hcapim⟩ :=
          job_wf_ok (hwf _ (List.mem_cons_self _ _)) hvim
        obtain ⟨cs, hps, hcslen⟩ :=
          process_one_some_of_valid (u := u) hwfim hcapim hvim
        constructor
        · rw [process_images, hps, List.filter_cons, if_pos hv]
          simp [ihlen]
        · intro row hrow
          rw [process_images, hps] at hrow
          rcases List.mem_cons.mp hrow with rfl | hrow
          · exact ⟨u, im, cs, List.mem_cons_self _ _, hvim, rfl, hcslen⟩
          · obtain ⟨u2, im2, cs2, hmem, hv2, hrow2, hlen2⟩ := ihrows row hrow
            exact ⟨u2, im2, cs2, List.mem_cons_of_mem _ hmem, hv2, hrow2, hlen2⟩
      · have hv0 : is_valid_job j = false := by
          simpa using hv
        have hps : process_one j.1 j.2 = none := process_one_none_of_invalid hv0
        have hpj : process_images (j :: rest) = process_images rest := by
          obtain ⟨u, o⟩ := j
          rw [process_images]
          simp only at hps
          rw [hps]
        constructor
        · rw [hpj, List.filter_cons, if_neg (by simp [hv0])]
          exact ihlen
        · intro row hrow
          rw [hpj] at hrow
          obtain ⟨u2, im2, cs2, hmem, hv2, hrow2, hlen2⟩ := ihrows row hrow
          exact ⟨u2, im2, cs2, List.mem_cons_of_mem _ hmem, hv2, hrow2, hlen2⟩

/-! ## The claims -/

/-- C1 counterexample: a well-formed RGBA image that passes the validity
check but holds more than `256 ^ 3` distinct colors makes `getcolors`
return `None`, so `find_top_colors` raises (`sorted(None)`) instead of
returning `min(N, distinct)` well-formed entries — "for every decoded
image" fails as stated. -/
theorem find_top_colors_overflow_counterexample :
    WellFormedImage bigRGBA ∧ 3 ≤ bigRGBA.channels ∧
    check_valid_image bigRGBA = true ∧
    find_top_colors bigRGBA 3 = none ∧
    ¬ ∃ out, find_top_colors bigRGBA 3 = some out := by
  refine ⟨bigRGBA_wf, by decide, by rw [check_valid_image_eq]; rfl,
    find_top_colors_bigRGBA 3, ?_⟩
  intro ⟨out, hout⟩
  rw [find_top_colors_bigRGBA 3] at hout
  exact Option.noConfusion hout

/-- C1 (amended): for every decoded image in the extractor's domain (a
well-formed pixel grid that passes the worker's validity check, i.e. at
least 3 channels) whose distinct-color count does not exceed the
`maxcolors=256 ** 3` cap of `getcolors` (automatic for 3-channel RGB
images, `numDistinctColors_le_cap_rgb`), and every count `n`,
`find_top_colors` returns exactly `min n (number of distinct colors)`
entries, each a well-formed uppercase `#RRGGBB` string, ordered by
descending pixel frequency (the counts of the frequency count are the
true pixel frequencies and the kept entries are sorted under `countGE`),
with ties broken stably: for every count value, the equal-frequency
colors of the sorted list keep their pre-sort order from the frequency
count. -/
theorem find_top_colors_contract (im : PILImage) (n : Nat)
    (hwf : WellFormedImage im) (hch : 3 ≤ im.channels)
    (hcap : numDistinctColors im ≤ 256 ^ 3) :
    ∃ colors out, getcolors im.pixels = some colors ∧
      find_top_colors im n = some out ∧
      out.length = min n (numDistinctColors im) ∧
      (∀ s ∈ out, WellFormedHexColor s) ∧
      List.Forall₂ entryHex ((pySortedByCountDesc colors).take n) out ∧
      List.Sorted countGE ((pySortedByCountDesc colors).take n) ∧
      (∀ e ∈ colors, e.1 = List.count e.2 im.pixels) ∧
      ∀ c : Nat,
        (pySortedByCountDesc colors).filter (fun y => y.1 == c) =
          colors.filter (fun y => y.1 == c) := by
  obtain ⟨hsome, out, hout, hlen, hforall, hwfs⟩ :=
    find_top_colors_some hwf hch hcap n
  refine ⟨getcolorsList im.pixels, out, hsome, hout, hlen, hwfs, hforall,
    ?_, ?_, ?_⟩
  · exact List.Pairwise.sublist (List.take_sublist n _)
      (List.sorted_insertionSort countGE _)
  · intro e he
    exact (mem_getcolorsList he).1
  · intro c
    exact filter_pySorted_count _ c

/-- Witness for C1 at a concrete RGB image and `n = 3`. -/
theorem find_top_colors_contract_witness :
    ∃ colors out, getcolors demoRGB.pixels = some colors ∧
      find_top_colors demoRGB 3 = some out ∧
      out.length = min 3 (numDistinctColors demoRGB) ∧
      (∀ s ∈ out, WellFormedHexColor s) ∧
      List.Forall₂ entryHex ((pySortedByCountDesc colors).take 3) out ∧
      List.Sorted countGE ((pySortedByCountDesc colors).take 3) ∧
      (∀ e ∈ colors, e.1 = List.count e.2 demoRGB.pixels) ∧
      ∀ c : Nat,
        (pySortedByCountDesc colors).filter (fun y => y.1 == c) =
          colors.filter (fun y => y.1 == c) :=
  find_top_colors_contract demoRGB 3 (by decide) (by decide) (by decide)

/-- C2 counterexample: a run over a single URL whose image fetches,
decodes and passes the validity check but has a single distinct color
completes with one row of 2 fields, not 1 + N = 4 — so "each row ... with
exactly 1+N fields" fails as stated. -/
theorem pipeline_row_width_counterexample :
    process_images [("u", FetchOutcome.ok demoMono)] = [["u", "#000000"]] ∧
    ¬ ∀ row ∈ process_images [("u", FetchOutcome.ok demoMono)],
        row.length = 1 + 3 := by
  constructor
  · decide
  · intro hall
    exact absurd (hall ["u", "#000000"] (by decide)) (by decide)

/-- C2 (amended): for every completed run whose decoded images are
well-formed pixel grids within the `maxcolors=256 ** 3` cap of
`getcolors` (automatic for 3-channel RGB images,
`numDistinctColors_le_cap_rgb`; above the cap the worker raises instead
of emitting a row) and whose URLs are pairwise distinct, the output holds
exactly K rows (K = number of jobs that fetch, decode and pass the
validity check), each row is `url :: colors` for one of those K jobs with
`1 + min(N, distinct-color-count)` fields (hence exactly 1+N when the
image has at least N distinct colors), and no row's URL is one of the
dropped URLs. -/
theorem pipeline_rows_contract (jobs : List (String × FetchOutcome))
    (hwf : ∀ j ∈ jobs, job_wf j = true)
    (hnodup : (jobs.map Prod.fst).Nodup) :
    (process_images jobs).length = (jobs.filter is_valid_job).length ∧
    (∀ row ∈ process_images jobs, ∃ u im cs,
      (u, FetchOutcome.ok im) ∈ jobs ∧ check_valid_image im = true ∧
      row = u :: cs ∧ cs.length = min 3 (numDistinctColors im)) ∧
    ∀ row ∈ process_images jobs, ∀ j ∈ jobs, is_valid_job j = false →
      row.head? ≠ some j.1 := by
  obtain ⟨hlen, hrows⟩ := process_images_spec jobs hwf
  refine ⟨hlen, hrows, ?_⟩
  intro row hrow j hj hjv hhead
  obtain ⟨u, im, cs, hmem, hv, hroweq, -⟩ := hrows row hrow
  rw [hroweq] at hhead
  have hu : u = j.1 := by simpa using hhead
  have hj2 : (u, FetchOutcome.ok im) = j :=
    List.inj_on_of_nodup_map hnodup hmem hj hu
  rw [← hj2] at hjv
  simp only [is_valid_job] at hjv
  simp [hjv] at hv

/-- Witness for C2 (amended) at one valid and one unreachable URL. -/
theorem pipeline_rows_contract_witness :
    (process_images
      [("u", FetchOutcome.ok demoRGB), ("v", FetchOutcome.connectionError)]).length =
      (([("u", FetchOutcome.ok demoRGB),
         ("v", FetchOutcome.connectionError)]).filter is_valid_job).length ∧
    (∀ row ∈ process_images
      [("u", FetchOutcome.ok demoRGB), ("v", FetchOutcome.connectionError)],
      ∃ u im cs,
        (u, FetchOutcome.ok im) ∈
          [("u", FetchOutcome.ok demoRGB), ("v", FetchOutcome.connectionError)] ∧
        check_valid_image im = true ∧
        row = u :: cs ∧ cs.length = min 3 (numDistinctColors im)) ∧
    ∀ row ∈ process_images
      [("u", FetchOutcome.ok demoRGB), ("v", FetchOutcome.connectionError)],
      ∀ j ∈ [("u", FetchOutcome.ok demoRGB), ("v", FetchOutcome.connectionError)],
        is_valid_job j = false → row.head? ≠ some j.1 :=
  pipeline_rows_contract
    [("u", FetchOutcome.ok demoRGB), ("v", FetchOutcome.connectionError)]
    (by decide) (by decide)

/-- C3: the URL reader enqueues exactly the non-blank stripped lines of
the stream, in stream order; a blank line that is not at the true end of
stream is skipped without ending the loop (the equality covers every
interleaving of blanks), and a stream of only blank lines enqueues
nothing (the reader terminates on every input, `read_urls_loop` being
total by decreasing stream position). -/
theorem read_urls_loop_contract (content : List Char) :
    read_urls_loop content =
      (streamLines content).filterMap
        (fun l => if pyStrip l = [] then none else some (String.mk (pyStrip l))) ∧
    ((∀ l ∈ streamLines content, pyStrip l = []) → read_urls_loop content = []) := by
  have h := read_urls_loop_eq_bounded content.length content Nat.le.refl
  refine ⟨h, fun hall => ?_⟩
  rw [h]
  exact List.filterMap_eq_nil_iff.mpr (fun l hl => by rw [if_pos (hall l hl)])

/-- Witness for C3 at a concrete stream with an interior blank line. -/
theorem read_urls_loop_contract_witness :
    read_urls_loop ("a\n\nb".data) =
      (streamLines ("a\n\nb".data)).filterMap
        (fun l => if pyStrip l = [] then none else some (String.mk (pyStrip l))) ∧
    ((∀ l ∈ streamLines ("a\n\nb".data), pyStrip l = []) →
      read_urls_loop ("a\n\nb".data) = []) :=
  read_urls_loop_contract ("a\n\nb".data)

/-- C4: one iteration of the worker loop processes the head URL whenever
the queue is non-empty (the queue has priority over the exit signal),
waits when the queue is empty and `finished_reading` is unset, and exits
exactly when the queue is empty and `finished_reading` is set — so a
worker never exits while the queue holds a URL. -/
theorem process_image_step_contract (q : List String) (d : Bool) :
    (process_image_step q d = WorkerAction.exit ↔ q = [] ∧ d = true) ∧
    (process_image_step q d = WorkerAction.wait ↔ q = [] ∧ d = false) ∧
    ∀ url rest, q = url :: rest → process_image_step q d = WorkerAction.process url := by
  cases q <;> cases d <;> simp [process_image_step]

/-- Witness for C4 at concrete queue states. -/
theorem process_image_step_contract_witness :
    process_image_step [] true = WorkerAction.exit ∧
    process_image_step [] false = WorkerAction.wait ∧
    process_image_step ["u"] true = WorkerAction.process "u" :=
  ⟨((process_image_step_contract [] true).1).mpr ⟨rfl, rfl⟩,
   ((process_image_step_contract [] false).2.1).mpr ⟨rfl, rfl⟩,
   (process_image_step_contract ["u"] true).2.2 "u" [] rfl⟩

/-- C5: each per-URL failure — connection failure, invalid URL scheme,
undecodable body, or the removed-image heuristic rejecting the image —
yields no ColorRecord for that URL, and the worker proceeds with the
remaining URLs unchanged. -/
theorem per_url_failures_nonfatal (url : String)
    (rest : List (String × FetchOutcome)) :
    process_one url FetchOutcome.connectionError = none ∧
    process_one url FetchOutcome.missingSchema = none ∧
    process_one url FetchOutcome.unidentifiedImage = none ∧
    (∀ im, check_valid_image im = false →
      process_one url (FetchOutcome.ok im) = none) ∧
    ∀ o, process_one url o = none →
      process_images ((url, o) :: rest) = process_images rest := by
  refine ⟨rfl, rfl, rfl, ?_, ?_⟩
  · intro im hv
    simp [process_one, load_image, hv]
  · intro o h
    simp [process_images, h]

/-- Witness for C5 at a concrete unreachable URL. -/
theorem per_url_failures_nonfatal_witness :
    process_one "u" FetchOutcome.connectionError = none ∧
    process_images [("u", FetchOutcome.connectionError)] = [] := by
  have h := per_url_failures_nonfatal "u" []
  exact ⟨h.1, by rw [h.2.2.2.2 FetchOutcome.connectionError h.1]; rfl⟩

/-- C6: the validity check passes exactly when the image has at least 3
channels; in particular every image of channel depth below 3 (grayscale,
palette, luminance-alpha) fails it and every RGB/RGBA image passes it. -/
theorem check_valid_image_iff (im : PILImage) :
    check_valid_image im = true ↔ 3 ≤ im.channels := by
  rw [check_valid_image_eq]
  exact decide_eq_true_iff

/-- Witness for C6 at a concrete RGB image and a grayscale image. -/
theorem check_valid_image_iff_witness :
    check_valid_image demoRGB = true ∧ check_valid_image demoGray ≠ true :=
  ⟨(check_valid_image_iff demoRGB).mpr (by decide),
   fun h => absurd ((check_valid_image_iff demoGray).mp h) (by decide)⟩

/-- C7: when the input source cannot be opened, `read_urls` raises the
fatal "Input file not found" error instead of returning normally, so no
URL list is ever produced for the queue. -/
theorem read_urls_missing_input_fatal :
    read_urls none = Except.error "Input file not found" ∧
    ∀ urls, read_urls none ≠ Except.ok urls := by
  refine ⟨rfl, ?_⟩
  intro urls h
  simp [read_urls] at h

/-- C8: the writer opens the sink in append mode — an absent sink starts
empty, an existing sink keeps every prior row as an untouched prefix — so
two consecutive runs against the same sink yield exactly the
concatenation of both runs' rows, with no deduplication and no
overwrite. -/
theorem write_results_appends (sink rows rows2 : List ColorRecord) :
    write_results (some sink) rows = sink ++ rows ∧
    write_results none rows = rows ∧
    (write_results (some sink) rows).take sink.length = sink ∧
    write_results (some (write_results (some sink) rows)) rows2 =
      sink ++ rows ++ rows2 := by
  have h1 : write_results (some sink) rows = sink ++ rows :=
    writeRows_eq_append rows sink
  refine ⟨h1, writeRows_eq_append rows [], ?_, ?_⟩
  · rw [h1, List.take_left]
  · rw [h1]
    exact writeRows_eq_append rows2 (sink ++ rows)

/-- Witness for C8 at concrete sink contents. -/
theorem write_results_appends_witness :
    write_results (some [["a"]]) [["b"]] = [["a"]] ++ [["b"]] ∧
    write_results none [["b"]] = [["b"]] ∧
    (write_results (some [["a"]]) [["b"]]).take ([["a"]] : List ColorRecord).length
      = [["a"]] ∧
    write_results (some (write_results (some [["a"]]) [["b"]])) [["c"]] =
      [["a"]] ++ [["b"]] ++ [["c"]] :=
  write_results_appends [["a"]] [["b"]] [["c"]]

/-- C9: the three specified hex conversions. -/
theorem rgb_to_hex_values :
    rgb_to_hex 0 0 0 = "#000000" ∧ rgb_to_hex 255 255 255 = "#FFFFFF" ∧
    rgb_to_hex 123 77 24 = "#7B4D18" := by
  decide

/-- C10 counterexample: the validity-check precondition alone does not
make `find_top_colors` total: `bigRGBA` is well formed and passes the
check, yet `getcolors` returns `None` (more than `256 ^ 3` distinct
colors) and the extractor raises for every `n` — the error branch is
reachable from inside the precondition. -/
theorem find_top_colors_totality_counterexample :
    check_valid_image bigRGBA = true ∧ WellFormedImage bigRGBA ∧
    getcolors bigRGBA.pixels = none ∧
    ¬ ∀ n, ∃ out, find_top_colors bigRGBA n = some out := by
  refine ⟨by rw [check_valid_image_eq]; rfl, bigRGBA_wf, getcolors_bigRGBA, ?_⟩
  intro hall
  obtain ⟨out, hout⟩ := hall 3
  rw [find_top_colors_bigRGBA 3] at hout
  exact Option.noConfusion hout

/-- C10 (amended): under the precondition the worker's validity check
establishes (well-formed pixel grid with at least 3 channels), every
entry of a frequency count `getcolors` delivers pairs its count with a
tuple of at least 3 components, so the per-channel subscriptions in
`find_top_colors` never fail, and the extractor is total whenever the
distinct-color count also stays within the `maxcolors=256 ** 3` cap
(automatic for 3-channel RGB images, `numDistinctColors_le_cap_rgb`);
called directly on a non-empty single-channel image (grayscale/palette,
whose color values are bare integers) it raises instead of returning a
value. -/
theorem find_top_colors_precondition (im : PILImage) (hwf : WellFormedImage im) :
    (3 ≤ im.channels →
      (∀ colors, getcolors im.pixels = some colors →
        ∀ e ∈ colors, ∃ r g b rest, e.2 = PyColor.tuple (r :: g :: b :: rest)) ∧
      (numDistinctColors im ≤ 256 ^ 3 →
        ∀ n, ∃ out, find_top_colors im n = some out)) ∧
    (im.channels = 1 → im.pixels ≠ [] → find_top_colors im 3 = none) := by
  constructor
  · intro hch
    constructor
    · intro colors hcolors e he
      have hc : colors = getcolorsList im.pixels := by
        rw [getcolors] at hcolors
        by_cases hov : 256 ^ 3 < (dedupFirst im.pixels).length
        · rw [if_pos hov] at hcolors
          exact Option.noConfusion hcolors
        · rw [if_neg hov] at hcolors
          exact (Option.some_inj.mp hcolors).symm
      rw [hc] at he
      obtain ⟨r, g, b, rest, hx, -, -, -⟩ := tuple_of_wf_entry hwf hch he
      exact ⟨r, g, b, rest, hx⟩
    · intro hcap n
      obtain ⟨-, out, hout, -, -, -⟩ := find_top_colors_some hwf hch hcap n
      exact ⟨out, hout⟩
  · intro h1 hne
    by_cases hov : 256 ^ 3 < (dedupFirst im.pixels).length
    · rw [find_top_colors, getcolors_eq_none hov]
    · have hsome : getcolors im.pixels = some (getcolorsList im.pixels) :=
        getcolors_eq_some (by omega)
      rw [find_top_colors, hsome]
      show hexOfEntries ((pySortedByCountDesc (getcolorsList im.pixels)).take 3) = none
      have hcolors : getcolorsList im.pixels ≠ [] := getcolorsList_ne_nil hne
      obtain ⟨x, xs, hx⟩ :
          ∃ x xs, pySortedByCountDesc (getcolorsList im.pixels) = x :: xs := by
        cases hs : pySortedByCountDesc (getcolorsList im.pixels) with
        | nil =>
            exfalso
            apply hcolors
            have := List.length_insertionSort countGE (getcolorsList im.pixels)
            rw [pySortedByCountDesc] at hs
            rw [hs] at this
            exact List.eq_nil_of_length_eq_zero this.symm
        | cons x xs => exact ⟨x, xs, rfl⟩
      have hxmem : x ∈ getcolorsList im.pixels := by
        have hin : x ∈ pySortedByCountDesc (getcolorsList im.pixels) := by
          rw [hx]
          exact List.mem_cons_self x xs
        exact (List.mem_insertionSort countGE).mp hin
      obtain ⟨-, hpix⟩ := mem_getcolorsList hxmem
      have hok := hwf.2 x.2 hpix
      have hint : ∃ v, x.2 = PyColor.int v := by
        cases hx2 : x.2 with
        | int v => exact ⟨v, rfl⟩
        | tuple cs =>
            rw [hx2] at hok
            simp only [pixelOk, Bool.and_eq_true, decide_eq_true_eq] at hok
            omega
      obtain ⟨v, hv⟩ := hint
      rw [hx]
      simp [hexOfEntries, pySubscript, hv]

/-- Witness for C10 at a concrete grayscale image. -/
theorem find_top_colors_precondition_witness :
    find_top_colors demoGray 3 = none :=
  (find_top_colors_precondition demoGray (by decide)).2 rfl (by decide)

end TopColors
